import Mathlib

/-!
Verification of the LearnedSPatialHashMap (lsph) core: a shallow embedding of
the learned spatial hash map (src/map/mod.rs, src/map/table.rs, src/hasher,
src/models, src/geometry) together with proofs about its operations.

Modelling conventions:
* Rust floats (`F: Float`, instantiated at f64) are modelled as exact rational
  numbers (`Rat`).  Every arithmetic operation the algorithms perform
  (+, -, *, /, floor, comparisons) is exact on the inputs used here.
* `u64`/`usize` values are modelled as `Nat`; the saturating float-to-integer
  cast `as_()` is `Int.toNat ∘ Int.floor` (negative predictions become 0).
* Euclidean distances are represented by their squares (`x.sqrt` is strictly
  monotone on nonnegative reals, so every comparison between two distances in
  the code has the same outcome as the comparison of the squares).
  `f64::MAX` is the exact rational (2^53 - 1) * 2^971, whose square seeds the
  nearest-neighbour search.
* A Rust panic (index out of bounds, `unwrap` of an `Err`, `%` by zero) is the
  `RustRes.panicked` value; normal returns are `RustRes.ok`.
* `Vec::capacity` is tracked in the `cap` field of `Table`; `with_capacity n`
  allocates exactly `n` (the deterministic allocator model).
* The hasher's `state` field is an incidental cache of the last hash value and
  is dropped; hashing is the pure function of (model, axis flag, coordinate).
* `BinaryHeap.pop` returns a minimum-distance entry; among several entries at
  the same minimal distance the model pops the earliest-pushed one.  All
  executions analysed below have pairwise distinct distances, so the tie rule
  never matters.
-/

namespace LSPH

/-- `Point` from src/geometry/point.rs: `{ id: usize, x: F, y: F }`.
Its derived `PartialEq`/`Eq` compares all three fields, including `id`. -/
structure Point where
  id : Nat
  x : Rat
  y : Rat
deriving DecidableEq, Repr

/-- `Point::default()`: id 0 at the origin. -/
def Point.default : Point := ⟨0, 0, 0⟩

/-- `LinearModel` from src/models/linear.rs. -/
structure LinearModel where
  coefficient : Rat
  intercept : Rat
deriving DecidableEq, Repr

/-- `LinearModel::new` / the derived `Default`: zero coefficient and intercept. -/
def LinearModel.new : LinearModel := ⟨0, 0⟩

/-- `predict(x) = x * coefficient + intercept`. -/
def LinearModel.predict (m : LinearModel) (x : Rat) : Rat :=
  x * m.coefficient + m.intercept

/-- `unpredict(y) = (y - intercept) / coefficient`. -/
def LinearModel.unpredict (m : LinearModel) (y : Rat) : Rat :=
  (y - m.intercept) / m.coefficient

/-- The error enum used by the model-fitting code (src/error.rs variants as
referenced from src/models/linear.rs and the assert macros). -/
inductive FitErr where
  | EmptyValError : FitErr
  | DiffLenError : FitErr
  | SteepSlope : FitErr
deriving DecidableEq, Repr

/-- Result of a Rust computation: either a normal value or a panic
(out-of-bounds index, `unwrap` of an `Err`, integer `%` by zero). -/
inductive RustRes (α : Type) where
  | panicked : RustRes α
  | ok : α → RustRes α
deriving DecidableEq, Repr

/-- `slr` from src/models/linear.rs: single-pass accumulation of the squared
x-deviations and the covariance terms, then `slope = cov / var`.
In f64 the slope is NaN exactly when the accumulated `sq_diff_sum` is zero
(0/0; all xs coincide forces the covariance sum to zero as well), which is the
`Error::SteepSlope` branch. -/
def slr (xys : List (Rat × Rat)) (xMean yMean : Rat) : Except FitErr (Rat × Rat) :=
  let vc := xys.foldl
    (fun (acc : Rat × Rat) xy =>
      let diff := xy.1 - xMean
      (acc.1 + diff * diff, acc.2 + diff * (xy.2 - yMean)))
    (0, 0)
  if vc.1 = 0 then Except.error FitErr.SteepSlope
  else
    let slope := vc.2 / vc.1
    Except.ok (slope, yMean - slope * xMean)

/-- `linear_regression` from src/models/linear.rs: the two `assert_empty!`
guards, the `assert_eq_len!` guard, then the means and `slr`. -/
def linear_regression (xs ys : List Rat) : Except FitErr (Rat × Rat) :=
  if xs.isEmpty then Except.error FitErr.EmptyValError
  else if ys.isEmpty then Except.error FitErr.EmptyValError
  else if xs.length ≠ ys.length then Except.error FitErr.DiffLenError
  else
    let n : Rat := (xs.length : Rat)
    let xMean := xs.sum / n
    let yMean := ys.sum / n
    slr (xs.zip ys) xMean yMean

/-- `LinearModel::fit`: `linear_regression(xs, ys).unwrap()` — an `Err`
from the regression aborts the process instead of being propagated. -/
def LinearModel.fit (xs ys : List Rat) : RustRes LinearModel :=
  match linear_regression xs ys with
  | Except.error _ => RustRes.panicked
  | Except.ok ci => RustRes.ok ⟨ci.1, ci.2⟩

/-- `mean` from the statistics helpers: zero on empty input. -/
def mean (values : List Rat) : Rat :=
  if values.isEmpty then 0 else values.sum / (values.length : Rat)

/-- `variance` (population) from the statistics helpers: zero on empty input. -/
def variance (values : List Rat) : Rat :=
  if values.isEmpty then 0
  else
    (values.map (fun x => (x - mean values) ^ 2)).sum / (values.length : Rat)

/-- `extract_x` from src/geometry/helper.rs. -/
def extract_x (ps : List Point) : List Rat := ps.map Point.x

/-- `extract_y` from src/geometry/helper.rs. -/
def extract_y (ps : List Point) : List Rat := ps.map Point.y

/-- `extract_id` from src/geometry/helper.rs: ids cast to the float type. -/
def extract_id (ps : List Point) : List Rat := ps.map (fun p => (p.id : Rat))

/-- `sort_by_x`: Rust's stable `sort_by` on the x coordinate, modelled by the
stable `List.mergeSort`. -/
def sort_by_x (ps : List Point) : List Point :=
  ps.mergeSort (fun a b => decide (a.x ≤ b.x))

/-- `sort_by_y`: stable sort on the y coordinate. -/
def sort_by_y (ps : List Point) : List Point :=
  ps.mergeSort (fun a b => decide (a.y ≤ b.y))

/-- `reset_id`: overwrite every point's id with its position in the list. -/
def reset_id (ps : List Point) : List Point :=
  ps.enum.map (fun ip => { ip.2 with id := ip.1 })

/-- `Axis` from src/geometry. -/
inductive Axis where
  | X : Axis
  | Y : Axis
deriving DecidableEq, Repr

/-- `Trainer` from src/models/trainer.rs. -/
structure Trainer where
  train_x : List Rat
  train_y : List Rat
  axis : Axis
deriving DecidableEq, Repr

/-- `Trainer::with_points` (src/models/trainer.rs): extract both coordinate
lists, compare variances, sort the mutable slice along the larger-variance
axis, reset ids, and build the trainer.  Note that `px`/`py` are extracted
BEFORE the sort, so `train_x` keeps the original order of the batch, while
`train_y` is the list `0, 1, …, n-1`.  The `assert_eq_len!` guard can never
fire (both lists come from the same slice).  Returns the trainer together
with the sorted, id-reset batch (the in-place mutation of `ps`). -/
def Trainer.with_points (ps : List Point) : Trainer × List Point :=
  let px := extract_x ps
  let py := extract_y ps
  if variance px > variance py then
    let ps2 := reset_id (sort_by_x ps)
    (⟨px, extract_id ps2, Axis.X⟩, ps2)
  else
    let ps2 := reset_id (sort_by_y ps)
    (⟨py, extract_id ps2, Axis.Y⟩, ps2)

/-- `LearnedHasher` (src/hasher/mod.rs) without its incidental `state` cache. -/
structure LearnedHasher where
  model : LinearModel
  sort_by_x : Bool
deriving DecidableEq, Repr

/-- `LearnedHasher::new` / `Default`: default model, `sort_by_x = true`. -/
def LearnedHasher.new : LearnedHasher := ⟨LinearModel.new, true⟩

/-- `make_hash`: floor of the model's prediction, cast to `u64` with the
saturating `as_()` (negative values become 0). -/
def make_hash (h : LearnedHasher) (data : Rat) : Nat :=
  (h.model.predict data).floor.toNat

/-- `make_hash_point`: hash the x or the y coordinate according to the axis
flag. -/
def make_hash_point (h : LearnedHasher) (p : Rat × Rat) : Nat :=
  if h.sort_by_x then make_hash h p.1 else make_hash h p.2

/-- `unhash`: the model's inverse applied to a hash value. -/
def unhash (h : LearnedHasher) (hash : Nat) : Rat :=
  h.model.unpredict (hash : Rat)

/-- `Table` (src/map/table.rs): a vector of buckets plus its allocated
capacity.  Buckets are ordered lists of points. -/
structure Table where
  buckets : List (List Point)
  cap : Nat
deriving DecidableEq, Repr

/-- `Table::new`: no buckets, capacity 0. -/
def Table.new : Table := ⟨[], 0⟩

/-- `Table::with_capacity`: no buckets, capacity `n`. -/
def Table.with_capacity (n : Nat) : Table := ⟨[], n⟩

/-- `LearnedHashMap` (src/map/mod.rs). -/
structure LearnedHashMap where
  hasher : LearnedHasher
  table : Table
  items : Nat
deriving DecidableEq, Repr

/-- `LearnedHashMap::new`: default hasher, empty table, zero items. -/
def LearnedHashMap.new : LearnedHashMap := ⟨LearnedHasher.new, Table.new, 0⟩

/-- `LearnedHashMap::with_capacity`. -/
def LearnedHashMap.with_capacity (n : Nat) : LearnedHashMap :=
  ⟨LearnedHasher.new, Table.with_capacity n, 0⟩

/-- `find_by_hash`: index the table at the raw hash (panicking when it is out
of bounds, as `self.table[hash]` does) and linearly search the bucket for the
first point with both coordinates equal.  Equality here is on coordinates
only, not ids. -/
def find_by_hash (m : LearnedHashMap) (hash : Nat) (p : Rat × Rat) :
    RustRes (Option Point) :=
  match m.table.buckets.get? hash with
  | none => RustRes.panicked
  | some b => RustRes.ok (b.find? (fun ep => ep.x == p.1 && ep.y == p.2))

/-- `get`: hash the query, return `None` when the hash exceeds the capacity,
otherwise delegate to `find_by_hash`. -/
def get (m : LearnedHashMap) (p : Rat × Rat) : RustRes (Option Point) :=
  let hash := make_hash_point m.hasher p
  if m.table.cap < hash then RustRes.ok none
  else find_by_hash m hash p

/-- `swap_remove` on a bucket: the element at `i` is replaced by the last
element, which is popped off the end. -/
def swapRemove (l : List Point) (i : Nat) : List Point :=
  (l.set i (l.getLast?.getD Point.default)).dropLast

/-- `Iterator::position`: the index of the first element satisfying the
predicate. -/
def position (pred : Point → Bool) : List Point → Option Nat
  | [] => none
  | a :: as => if pred a then some 0 else (position pred as).map (· + 1)

/-- `Table::remove_entry`: `bucket(hash) = hash % len` (a `%`-by-zero panic on
an unallocated table), then position of the first entry equal (all fields) to
`entry`, then `swap_remove`. -/
def Table.remove_entry (t : Table) (hash : Nat) (entry : Point) :
    RustRes (Option Point × Table) :=
  if t.buckets.length = 0 then RustRes.panicked
  else
    let index := hash % t.buckets.length
    let bucket := (t.buckets.get? index).getD []
    match position (fun ek => ek == entry) bucket with
    | none => RustRes.ok (none, t)
    | some i =>
        RustRes.ok (some ((bucket.get? i).getD Point.default),
          { t with buckets := t.buckets.set index (swapRemove bucket i) })

/-- `remove` (src/map/mod.rs): hash the point, decrement `items`
UNCONDITIONALLY (before knowing whether anything will be removed).  The
decrement is a `usize` `items -= 1`: when `items` is already 0 it underflows,
which is a panic (debug builds abort; release builds wrap to `2^64 - 1`,
equally divergent from the spec's account) — modelled as a panic.  Then
`table.remove_entry`. -/
def remove (m : LearnedHashMap) (p : Point) : RustRes (Option Point × LearnedHashMap) :=
  if m.items = 0 then RustRes.panicked
  else
    let hash := make_hash_point m.hasher (p.x, p.y)
    let m1 := { m with items := m.items - 1 }
    match m1.table.remove_entry hash p with
    | RustRes.panicked => RustRes.panicked
    | RustRes.ok (r, t) => RustRes.ok (r, { m1 with table := t })

/-- The redistribution loop of `resize_with_capacity`: every drained point is
pushed onto `new_table[hash]` at its RAW hash index (no modulo); an index at
or beyond the new length is an out-of-bounds panic. -/
def placeAll (h : LearnedHasher) (buckets : List (List Point)) :
    List Point → RustRes (List (List Point))
  | [] => RustRes.ok buckets
  | p :: rest =>
    let hash := make_hash_point h (p.x, p.y)
    match buckets.get? hash with
    | none => RustRes.panicked
    | some b => placeAll h (buckets.set hash (b ++ [p])) rest

/-- `resize_with_capacity`: allocate `target` fresh buckets, drain every point
of the old table in bucket order and re-place it at its raw hash in the new
table. -/
def resize_with_capacity (m : LearnedHashMap) (target : Nat) :
    RustRes LearnedHashMap :=
  match placeAll m.hasher (List.replicate target []) m.table.buckets.flatten with
  | RustRes.panicked => RustRes.panicked
  | RustRes.ok bs => RustRes.ok { m with table := ⟨bs, target⟩ }

/-- `resize`: initial single bucket on an unallocated table, otherwise double. -/
def resize (m : LearnedHashMap) : RustRes LearnedHashMap :=
  resize_with_capacity m
    (match m.table.buckets.length with
     | 0 => 1
     | n => 2 * n)

/-- The scan of `insert_with_axis`: walk the bucket; at the first element
equal (all fields, ids included) to `p` stop and report a replace (`none`
here); otherwise count the elements strictly below `p` on the active axis
and report that count as the insertion index. -/
def insertScan (ltP : Point → Bool) (p : Point) : List Point → Nat → Option Nat
  | [], idx => some idx
  | ep :: rest, idx =>
      if ep = p then none
      else insertScan ltP p rest (if ltP ep then idx + 1 else idx)

/-- `insert_with_axis`: bucket at `hash % len` (panic when the table has no
buckets), replace-in-place on full equality returning the previous value,
otherwise insert at the counted index and increment `items`.  When the scan
finds an equal element, `mem::replace(ep, p)` writes a value equal to the one
it removes, so the table is unchanged and the returned point is `p` itself. -/
def insert_with_axis (m : LearnedHashMap) (p_value : Rat) (p : Point)
    (hash : Nat) : RustRes (Option Point × LearnedHashMap) :=
  let len := m.table.buckets.length
  if len = 0 then RustRes.panicked
  else
    let bi := hash % len
    let bucket := (m.table.buckets.get? bi).getD []
    let ltP : Point → Bool :=
      if m.hasher.sort_by_x then (fun ep => decide (ep.x < p.x))
      else (fun ep => decide (ep.y < p_value))
    match insertScan ltP p bucket 0 with
    | none => RustRes.ok (some p, m)
    | some idx =>
        RustRes.ok (none,
          { m with
            table := { m.table with
              buckets := m.table.buckets.set bi (bucket.insertIdx idx p) },
            items := m.items + 1 })

/-- The shared resize precondition of `insert`/`insert_inner`: resize when the
table has no buckets or more than 3/4 of the bucket count is occupied. -/
def preResize (m : LearnedHashMap) : RustRes LearnedHashMap :=
  if m.table.buckets.isEmpty ∨ 3 * m.table.buckets.length / 4 < m.items then
    resize m
  else RustRes.ok m

/-- `insert_inner`: conditional resize, axis value, hash, then
`insert_with_axis` with NO capacity check (hashes at or beyond the length
wrap around via the `% len` of `insert_with_axis`). -/
def insert_inner (m : LearnedHashMap) (p : Point) :
    RustRes (Option Point × LearnedHashMap) :=
  match preResize m with
  | RustRes.panicked => RustRes.panicked
  | RustRes.ok m1 =>
    let p_value := if m1.hasher.sort_by_x then p.x else p.y
    let hash := make_hash_point m1.hasher (p.x, p.y)
    insert_with_axis m1 p_value p hash

/-- The per-point loop of `batch_insert_inner`. -/
def insertAll (m : LearnedHashMap) : List Point → RustRes LearnedHashMap
  | [] => RustRes.ok m
  | p :: rest =>
    match insert_inner m p with
    | RustRes.panicked => RustRes.panicked
    | RustRes.ok (_, m1) => insertAll m1 rest

/-- `batch_insert_inner`: pre-size the table to the batch length, then insert
every point through `insert_inner`. -/
def batch_insert_inner (m : LearnedHashMap) (ps : List Point) :
    RustRes LearnedHashMap :=
  match resize_with_capacity m ps.length with
  | RustRes.panicked => RustRes.panicked
  | RustRes.ok m1 => insertAll m1 ps

/-- `batch_insert` (src/map/mod.rs): run the trainer (which always succeeds,
so the `if let Ok(trainer)` branch is always taken), fit the model with
`.unwrap()` (a fit error is a panic), set the axis flag, fit again via
`model_fit(...).unwrap()` with the same data, then `batch_insert_inner` on the
sorted batch.  The Rust function returns `Ok(())` on every non-panicking path;
the model also returns the mutated (sorted, id-reset) batch. -/
def batch_insert (m : LearnedHashMap) (ps : List Point) :
    RustRes (LearnedHashMap × List Point) :=
  let tp := Trainer.with_points ps
  match LinearModel.fit tp.1.train_x tp.1.train_y with
  | RustRes.panicked => RustRes.panicked
  | RustRes.ok model1 =>
    let sbx : Bool := match tp.1.axis with
      | Axis.X => true
      | Axis.Y => false
    match LinearModel.fit tp.1.train_x tp.1.train_y with
    | RustRes.panicked => RustRes.panicked
    | RustRes.ok model2 =>
      let _ := model1
      let m1 := { m with hasher := ⟨model2, sbx⟩ }
      match batch_insert_inner m1 tp.2 with
      | RustRes.panicked => RustRes.panicked
      | RustRes.ok m2 => RustRes.ok (m2, tp.2)

/-- `rehash`: drain every stored point (leaving the buckets empty), then feed
them back through `batch_insert`, which refits the model and may change the
selected axis. -/
def rehash (m : LearnedHashMap) : RustRes LearnedHashMap :=
  let old_data := m.table.buckets.flatten
  let drained :=
    { m with table :=
      { m.table with buckets := m.table.buckets.map (fun _ => ([] : List Point)) } }
  match batch_insert drained old_data with
  | RustRes.panicked => RustRes.panicked
  | RustRes.ok (m2, _) => RustRes.ok m2

/-- `insert` (src/map/mod.rs): conditional resize; when the hash reaches the
current capacity, grow to `hash * 2`, place the point, then `rehash` — and
return `None` on both the `Ok` and the `Err` arm of the rehash; otherwise
plain `insert_with_axis`. -/
def insert (m : LearnedHashMap) (p : Point) :
    RustRes (Option Point × LearnedHashMap) :=
  match preResize m with
  | RustRes.panicked => RustRes.panicked
  | RustRes.ok m1 =>
    let p_value := if m1.hasher.sort_by_x then p.x else p.y
    let hash := make_hash_point m1.hasher (p.x, p.y)
    if m1.table.cap ≤ hash then
      match resize_with_capacity m1 (hash * 2) with
      | RustRes.panicked => RustRes.panicked
      | RustRes.ok m2 =>
        match insert_with_axis m2 p_value p hash with
        | RustRes.panicked => RustRes.panicked
        | RustRes.ok (_, m3) =>
          match rehash m3 with
          | RustRes.panicked => RustRes.panicked
          | RustRes.ok m4 => RustRes.ok (none, m4)
    else insert_with_axis m1 p_value p hash

/-- In-box test of `range_search`: both coordinates between the corners. -/
def inBox (bl tr : Rat × Rat) (p : Point) : Bool :=
  decide (bl.1 ≤ p.x) && decide (p.x ≤ tr.1) &&
  decide (bl.2 ≤ p.y) && decide (p.y ≤ tr.2)

/-- The bucket scan of `range_search` over the inclusive index range
`left..=right`; indexing a bucket at or beyond the length panics. -/
def collectRange (buckets : List (List Point)) (bl tr : Rat × Rat) :
    List Nat → RustRes (List Point)
  | [] => RustRes.ok []
  | i :: rest =>
    match buckets.get? i with
    | none => RustRes.panicked
    | some b =>
      match collectRange buckets bl tr rest with
      | RustRes.panicked => RustRes.panicked
      | RustRes.ok acc => RustRes.ok (b.filter (inBox bl tr) ++ acc)

/-- `range_search` (src/map/mod.rs): hash the corners, clamp the right hash to
`capacity - 1` only when it strictly exceeds the capacity, return `None` for
an inverted or out-of-capacity left hash, scan `left..=right`, and return
`None` when nothing matched. -/
def range_search (m : LearnedHashMap) (bottom_left top_right : Rat × Rat) :
    RustRes (Option (List Point)) :=
  let right0 := make_hash_point m.hasher top_right
  let right_hash := if m.table.cap < right0 then m.table.cap - 1 else right0
  let left_hash := make_hash_point m.hasher bottom_left
  if m.table.cap < left_hash ∨ right_hash < left_hash then RustRes.ok none
  else
    match collectRange m.table.buckets bottom_left top_right
        (List.range' left_hash (right_hash + 1 - left_hash)) with
    | RustRes.panicked => RustRes.panicked
    | RustRes.ok result =>
      if result.isEmpty then RustRes.ok none else RustRes.ok (some result)

/-- `radius_range`: the bounding box `[center - r, center + r]` on both axes,
delegated to `range_search`; no Euclidean post-filter. -/
def radius_range (m : LearnedHashMap) (query_point : Rat × Rat) (radius : Rat) :
    RustRes (Option (List Point)) :=
  range_search m
    (query_point.1 - radius, query_point.2 - radius)
    (query_point.1 + radius, query_point.2 + radius)

/-- The square of `Euclidean::distance` (src/geometry/distance.rs). -/
def distSq (a b : Rat × Rat) : Rat :=
  (a.1 - b.1) ^ 2 + (a.2 - b.2) ^ 2

/-- The square of `f64::MAX = (2^53 - 1) * 2^971`, the initial `min_d` of the
nearest-neighbour search (stated via `Nat` arithmetic, which evaluates fast). -/
def f64MaxSq : Rat := ((2 ^ 53 - 1 : Nat) ^ 2 * (2 ^ 971 : Nat) ^ 2 : Nat)

/-- `NearestNeighborState` (src/map/nn.rs), with the distance squared. -/
structure NNHeapEntry where
  distSq : Rat
  point : Point
deriving DecidableEq, Repr

/-- `BinaryHeap::pop` on the flipped ordering: remove and return a
minimum-distance entry (the earliest-pushed one among equals). -/
def heapPop : List NNHeapEntry → Option (NNHeapEntry × List NNHeapEntry)
  | [] => none
  | e :: rest =>
    match heapPop rest with
    | none => some (e, [])
    | some (v, rest2) =>
      if v.distSq < e.distSq then some (v, e :: rest2) else some (e, rest)

/-- `local_min_heap`: push every point of the bucket at `local_hash` with its
distance to the query (panicking when the index is out of bounds), then pop
one entry from the (persistent) heap and update the running best. -/
def local_min_heap (m : LearnedHashMap) (heap : List NNHeapEntry)
    (local_hash : Nat) (query_point : Rat × Rat) (min_d : Rat) (nn : Point) :
    RustRes (List NNHeapEntry × Rat × Point) :=
  match m.table.buckets.get? local_hash with
  | none => RustRes.panicked
  | some b =>
    let heap1 := heap ++ b.map (fun p => ⟨distSq query_point (p.x, p.y), p⟩)
    match heapPop heap1 with
    | none => RustRes.ok (heap1, min_d, nn)
    | some (v, heap2) =>
      if v.distSq < min_d then RustRes.ok (heap2, v.distSq, v.point)
      else RustRes.ok (heap2, min_d, nn)

/-- `horizontal_distance` squared: unhash the bucket index and take the
single-axis distance to the query on the active axis. -/
def horizontal_distance_sq (m : LearnedHashMap) (query_point : Rat × Rat)
    (hash : Nat) : Rat :=
  let x := unhash m.hasher hash
  if m.hasher.sort_by_x then (query_point.1 - x) ^ 2 else (query_point.2 - x) ^ 2

/-- The leftward expansion loop of `nearest_neighbor`: while the horizontal
lower-bound distance of the candidate bucket beats `min_d`, scan it; stop at
bucket 0. -/
def nnLeft (m : LearnedHashMap) (q : Rat × Rat) (left_hash : Nat)
    (heap : List NNHeapEntry) (min_d : Rat) (nn : Point) :
    RustRes (List NNHeapEntry × Rat × Point) :=
  if horizontal_distance_sq m q left_hash < min_d then
    match local_min_heap m heap left_hash q min_d nn with
    | RustRes.panicked => RustRes.panicked
    | RustRes.ok (h2, d2, n2) =>
      if left_hash = 0 then RustRes.ok (h2, d2, n2)
      else nnLeft m q (left_hash - 1) h2 d2 n2
  else RustRes.ok (heap, min_d, nn)
termination_by left_hash
decreasing_by simp_wf; omega

/-- The rightward expansion loop of `nearest_neighbor`: scan while the
horizontal bound beats `min_d`; after a scan, stop when the incremented index
reaches the capacity.  (Recursion is possible only after an in-bounds scan,
so the measure `length - right_hash` decreases.) -/
def nnRight (m : LearnedHashMap) (q : Rat × Rat) (right_hash : Nat)
    (heap : List NNHeapEntry) (min_d : Rat) (nn : Point) :
    RustRes (Rat × Point) :=
  if horizontal_distance_sq m q right_hash < min_d then
    match hb : m.table.buckets.get? right_hash with
    | none => RustRes.panicked
    | some _ =>
      match local_min_heap m heap right_hash q min_d nn with
      | RustRes.panicked => RustRes.panicked
      | RustRes.ok (h2, d2, n2) =>
        if right_hash + 1 = m.table.cap then RustRes.ok (d2, n2)
        else nnRight m q (right_hash + 1) h2 d2 n2
  else RustRes.ok (min_d, nn)
termination_by m.table.buckets.length - right_hash
decreasing_by
  simp_wf
  have hlt : right_hash < m.table.buckets.length := by
    by_contra hge
    rw [List.get?_eq_none.mpr (Nat.le_of_not_lt hge)] at hb
    exact Option.noConfusion hb
  omega

/-- `nearest_neighbor` (src/map/mod.rs): clamp the query hash to
`capacity - 1` only when it strictly exceeds the capacity, scan the home
bucket, expand left, expand right, and return the best point found. -/
def nearest_neighbor (m : LearnedHashMap) (query_point : Rat × Rat) :
    RustRes (Option Point) :=
  let hash0 := make_hash_point m.hasher query_point
  let hash := if m.table.cap < hash0 then m.table.cap - 1 else hash0
  match local_min_heap m [] hash query_point f64MaxSq Point.default with
  | RustRes.panicked => RustRes.panicked
  | RustRes.ok (h1, d1, n1) =>
    match nnLeft m query_point (hash - 1) h1 d1 n1 with
    | RustRes.panicked => RustRes.panicked
    | RustRes.ok (h2, d2, n2) =>
      match nnRight m query_point (hash + 1) h2 d2 n2 with
      | RustRes.panicked => RustRes.panicked
      | RustRes.ok (_, n3) => RustRes.ok (some n3)

/-- Modelled from the spec: the independent brute-force scan that
`nearest_neighbor` is specified against — the point of the set minimising
the Euclidean distance (equivalently its square) to the query, first-found
among ties. -/
def bruteForceNearest (ps : List Point) (q : Rat × Rat) : Option Point :=
  ps.foldl
    (fun best p =>
      match best with
      | none => some p
      | some b =>
        if distSq q (p.x, p.y) < distSq q (b.x, b.y) then some p else some b)
    none

/-- Projection of an insert/remove result: the returned option, dropping the
new map state (`none` when the call panicked). -/
def resultOfInsert : RustRes (Option Point × LearnedHashMap) → Option (Option Point)
  | RustRes.panicked => none
  | RustRes.ok rm => some rm.1

/-- The placement invariant of the bucket table: every stored point resides in
the bucket at index `hash(p) mod table.length`. -/
def PlacementInv (m : LearnedHashMap) : Prop :=
  ∀ i ∈ List.range m.table.buckets.length,
    ∀ p ∈ (m.table.buckets.get? i).getD [],
      i = make_hash_point m.hasher (p.x, p.y) % m.table.buckets.length

/-- Reachable map states: a freshly constructed map, followed by any sequence
of normally-completing `insert`, `batch_insert` and `remove` calls.  (The
query operations do not mutate the table.) -/
inductive Reached : LearnedHashMap → Prop where
  | init : Reached LearnedHashMap.new
  | withCap (n : Nat) : Reached (LearnedHashMap.with_capacity n)
  | ins {m m2 : LearnedHashMap} {p : Point} {r : Option Point} :
      Reached m → insert m p = RustRes.ok (r, m2) → Reached m2
  | batch {m m2 : LearnedHashMap} {ps ps2 : List Point} :
      Reached m → batch_insert m ps = RustRes.ok (m2, ps2) → Reached m2
  | rem {m m2 : LearnedHashMap} {p : Point} {r : Option Point} :
      Reached m → remove m p = RustRes.ok (r, m2) → Reached m2

/-- The five-point batch `(1,1) (2,1) (3,1) (4,1) (5,1)` (already in ascending
x order, ids equal to ranks). -/
def data5 : List Point :=
  [⟨0, 1, 1⟩, ⟨1, 2, 1⟩, ⟨2, 3, 1⟩, ⟨3, 4, 1⟩, ⟨4, 5, 1⟩]

/-- The map obtained by batch-inserting `data5` into a fresh map: the fitted
model is `predict x = x - 1`, the table has 10 buckets (one load-factor
doubling), and the five points sit in buckets 0–4. -/
def st5 : LearnedHashMap :=
  match batch_insert LearnedHashMap.new data5 with
  | RustRes.ok md => md.1
  | RustRes.panicked => LearnedHashMap.new

/-- A 90-point batch: `x = 0, 1, …, 88` plus one outlier at `x = 335`, all on
the line `y = 0`.  The least-squares fit of (coordinate, position) pairs gives
`predict 335 ≈ 189.3`, beyond the final table capacity of 180. -/
def c1batch : List Point :=
  (List.range 90).map (fun i => ⟨i, if i = 89 then 335 else (i : Rat), 0⟩)

/-- The result of batch-inserting `c1batch` into a fresh map. -/
def c1res : RustRes (LearnedHashMap × List Point) :=
  batch_insert LearnedHashMap.new c1batch

/-- The map state produced by batch-inserting `c1batch` into a fresh map.
The fitted model is `predict x = (8055 x + 331936) / 16009`, the final table
has 180 buckets, and the outlier `(id 89, x = 335)` hashes to 189 and wraps
around into bucket 189 mod 180 = 9. -/
def c1st : LearnedHashMap :=
  match c1res with
  | RustRes.ok md => md.1
  | RustRes.panicked => LearnedHashMap.new

/-- The (sorted, id-reset) batch returned by the `c1batch` batch insert. -/
def c1ps : List Point :=
  match c1res with
  | RustRes.ok md => md.2
  | RustRes.panicked => []

/-- A map holding the single point `(id 0, 1, 1)` (the state after inserting
it into a fresh map): one bucket, one item, unfit (all-zero) model. -/
def c4m1 : LearnedHashMap :=
  ⟨⟨⟨0, 0⟩, true⟩, ⟨[[⟨0, 1, 1⟩]], 1⟩, 1⟩

/-- The batch of the repository's own trainer unit test:
`(1,1) (3,1) (2,1) (3,2) (5,1)` in this (unsorted) order. -/
def c7data : List Point :=
  [⟨1, 1, 1⟩, ⟨2, 3, 1⟩, ⟨3, 2, 1⟩, ⟨4, 3, 2⟩, ⟨5, 5, 1⟩]

/-- C9: for every query point and radius, `radius_range` returns exactly the
result of `range_search` on the box `[center - r, center + r]` on both axes;
no secondary Euclidean-distance filter is applied. -/
theorem lsph_c9_radius_range_is_box_search
    (m : LearnedHashMap) (q : Rat × Rat) (r : Rat) :
    radius_range m q r =
      range_search m (q.1 - r, q.2 - r) (q.1 + r, q.2 + r) := rfl

/-- C6: `batch_insert` on an empty batch does not return a recoverable fit
error: it panics (the `unwrap` inside `LinearModel::fit` aborts on
`Err(EmptyValError)`), terminating the program, for every starting map
state. -/
theorem lsph_c6_batch_insert_empty_panics (m : LearnedHashMap) :
    batch_insert m [] = RustRes.panicked := rfl

/-- C7 counterexample: on the repository's own trainer-test batch the training
inputs are `[1, 3, 2, 3, 5]` — the chosen-axis coordinates in their ORIGINAL
order — not the sorted sequence `[1, 2, 3, 3, 5]` the claim requires, so the
i-th training input is not the i-th smallest coordinate. -/
theorem lsph_c7_counterexample :
    (Trainer.with_points c7data).1.axis = Axis.X ∧
    (Trainer.with_points c7data).1.train_x = [1, 3, 2, 3, 5] ∧
    extract_x (Trainer.with_points c7data).2 = [1, 2, 3, 3, 5] ∧
    (Trainer.with_points c7data).1.train_x ≠
      extract_x (Trainer.with_points c7data).2 := by with_unfolding_all decide

/-- C4 counterexample: with the point `(id 0, 1, 1)` stored, inserting
`(id 1, 1, 1)` — identical coordinates, different id — does NOT replace: it
returns `none` (no previous point) and the item count rises from 1 to 2,
because the bucket scan compares with the derived `PartialEq`, which includes
the id. -/
theorem lsph_c4_counterexample :
    insert LearnedHashMap.new ⟨0, 1, 1⟩ = RustRes.ok (none, c4m1) ∧
    resultOfInsert (insert c4m1 ⟨1, 1, 1⟩) = some none ∧
    (match insert c4m1 ⟨1, 1, 1⟩ with
     | RustRes.ok rm => rm.2.items
     | RustRes.panicked => 0) = 2 := by with_unfolding_all decide

/-- C5 counterexample: removing a point that is not stored returns `none` but
still decrements the item count (from 1 to 0), because `remove` subtracts
before delegating to `remove_entry`; the claim that the map is left unchanged
fails. -/
theorem lsph_c5_counterexample :
    (⟨0, 2, 2⟩ : Point) ∉ c4m1.table.buckets.flatten ∧
    remove c4m1 ⟨0, 2, 2⟩ = RustRes.ok (none, { c4m1 with items := 0 }) := by
  with_unfolding_all decide

set_option maxRecDepth 8000 in
/-- C2: on the batch-inserted set `data5`, the out-of-domain query `(12, 1)`
panics (the right expansion reaches bucket index 10 = table length because the
clamp uses `>` instead of `>=`), while the independent brute-force scan
returns the stored point `(5, 1)`. -/
theorem lsph_c2_nearest_neighbor_code_bug :
    batch_insert LearnedHashMap.new data5 = RustRes.ok (st5, data5) ∧
    bruteForceNearest data5 (12, 1) = some ⟨4, 5, 1⟩ ∧
    nearest_neighbor st5 (12, 1) = RustRes.panicked := by with_unfolding_all decide

/-- C3 counterexample: on `st5` (fitted model `x - 1`, coefficient 1, hence
monotonic), the box `(1,1) – (11.5,2)` contains the stored point `(5, 1)`,
but `range_search` panics: the top-right hash is exactly the capacity 10,
which the `>`-clamp does not reduce, so the scan indexes bucket 10 of a
10-bucket table. -/
theorem lsph_c3_counterexample :
    st5.hasher.model.coefficient = 1 ∧
    (⟨4, 5, 1⟩ : Point) ∈ st5.table.buckets.flatten ∧
    inBox (1, 1) ((23 : Rat)/2, 2) ⟨4, 5, 1⟩ = true ∧
    range_search st5 (1, 1) ((23 : Rat)/2, 2) = RustRes.panicked := by with_unfolding_all decide

set_option maxRecDepth 1000000 in
lemma c1_res_ne : c1res ≠ RustRes.panicked := by with_unfolding_all decide

lemma c1_res_eq : c1res = RustRes.ok (c1st, c1ps) := by
  cases hr : c1res with
  | panicked => exact absurd hr c1_res_ne
  | ok md =>
    have h1 : c1st = md.1 := by unfold c1st; rw [hr]
    have h2 : c1ps = md.2 := by unfold c1ps; rw [hr]
    rw [h1, h2]

set_option maxRecDepth 1000000 in
lemma c1_ps_eq : c1ps = c1batch := by with_unfolding_all decide

set_option maxRecDepth 1000000 in
lemma c1_mem : (⟨89, 335, 0⟩ : Point) ∈ c1st.table.buckets.flatten := by
  with_unfolding_all decide

set_option maxRecDepth 1000000 in
lemma c1_get : get c1st (335, 0) = RustRes.ok none := by
  with_unfolding_all decide

/-- C1 counterexample: batch-inserting the 90-point set `c1batch` succeeds and
stores the point `(id 89, 335, 0)` (wrapped around into bucket
189 mod 180 = 9), but `get (335, 0)` returns `none`: the stored point's hash
189 exceeds the table capacity 180, so the lookup gives up before reaching
any bucket. -/
theorem lsph_c1_counterexample :
    batch_insert LearnedHashMap.new c1batch = RustRes.ok (c1st, c1ps) ∧
    c1ps = c1batch ∧
    (⟨89, 335, 0⟩ : Point) ∈ c1st.table.buckets.flatten ∧
    get c1st (335, 0) = RustRes.ok none :=
  ⟨c1_res_eq, c1_ps_eq, c1_mem, c1_get⟩

/-- The scan of `insert_with_axis` returns `none` (replace) exactly when the
bucket holds an element equal — in all fields — to the probe point. -/
lemma insertScan_eq_none_iff (ltP : Point → Bool) (p : Point) :
    ∀ (b : List Point) (i : Nat), insertScan ltP p b i = none ↔ p ∈ b := by
  intro b
  induction b with
  | nil => intro i; simp [insertScan]
  | cons ep rest ih =>
    intro i
    by_cases h : ep = p
    · subst h; simp [insertScan]
    · simp [insertScan, h, ih, Ne.symm h]

/-- The insertion index counted by the scan never exceeds the bucket length. -/
lemma insertScan_le (ltP : Point → Bool) (p : Point) :
    ∀ (b : List Point) (i idx : Nat), insertScan ltP p b i = some idx →
      idx ≤ i + b.length := by
  intro b
  induction b with
  | nil =>
    intro i idx h
    simp [insertScan] at h
    omega
  | cons ep rest ih =>
    intro i idx h
    rw [insertScan] at h
    split at h
    · exact absurd h (by simp)
    · have h2 := ih _ _ h
      by_cases hlt : ltP ep = true <;> simp [hlt] at h2 <;> simp <;> omega

/-- C4 (amended): `insert_with_axis` replaces in place — returning the
previous point and leaving the map unchanged — exactly when the bucket holds
a point equal to the probe in ALL fields (id included); otherwise, even when
a point with the same coordinates but another id is present, the point is
inserted additionally and the item count increments. -/
theorem lsph_c4_replace_amended (m : LearnedHashMap) (p_value : Rat) (p : Point)
    (hash : Nat) (hlen : m.table.buckets.length ≠ 0) :
    ((p ∈ (m.table.buckets.get? (hash % m.table.buckets.length)).getD []) →
        insert_with_axis m p_value p hash = RustRes.ok (some p, m)) ∧
    ((p ∉ (m.table.buckets.get? (hash % m.table.buckets.length)).getD []) →
        ∃ m2, insert_with_axis m p_value p hash = RustRes.ok (none, m2) ∧
          m2.items = m.items + 1 ∧
          p ∈ (m2.table.buckets.get? (hash % m.table.buckets.length)).getD []) := by
  constructor
  · intro hmem
    have hscan := (insertScan_eq_none_iff
      (if m.hasher.sort_by_x then (fun ep => decide (ep.x < p.x))
       else (fun ep => decide (ep.y < p_value))) p
      ((m.table.buckets.get? (hash % m.table.buckets.length)).getD []) 0).mpr hmem
    simp only [insert_with_axis, if_neg hlen, hscan]
  · intro hmem
    cases hscan : insertScan
        (if m.hasher.sort_by_x then (fun ep => decide (ep.x < p.x))
         else (fun ep => decide (ep.y < p_value))) p
        ((m.table.buckets.get? (hash % m.table.buckets.length)).getD []) 0 with
    | none =>
      exact absurd ((insertScan_eq_none_iff _ _ _ _).mp hscan) hmem
    | some idx =>
      have heq : insert_with_axis m p_value p hash = RustRes.ok (none,
          { m with
            table := { m.table with
              buckets := m.table.buckets.set (hash % m.table.buckets.length)
                (((m.table.buckets.get? (hash % m.table.buckets.length)).getD []).insertIdx idx p) },
            items := m.items + 1 }) := by
        simp only [insert_with_axis, if_neg hlen, hscan]
      refine ⟨_, heq, rfl, ?_⟩
      have hbi : hash % m.table.buckets.length < m.table.buckets.length :=
        Nat.mod_lt _ (Nat.pos_of_ne_zero hlen)
      have hidx : idx ≤ ((m.table.buckets.get? (hash % m.table.buckets.length)).getD []).length := by
        have := insertScan_le _ _ _ _ _ hscan
        omega
      have hset : ((m.table.buckets.set (hash % m.table.buckets.length)
          (((m.table.buckets.get? (hash % m.table.buckets.length)).getD []).insertIdx idx p)).get?
            (hash % m.table.buckets.length)) =
          some (((m.table.buckets.get? (hash % m.table.buckets.length)).getD []).insertIdx idx p) := by
        rw [List.get?_eq_getElem?]
        exact List.getElem?_set_self (by simpa using hbi)
      simp only [hset, Option.getD_some]
      exact (List.mem_insertIdx hidx).mpr (Or.inl rfl)

/-- Witness: in the one-point map `c4m1`, re-inserting the identical point
(id and coordinates) replaces in place, returning the previous point. -/
theorem lsph_c4_replace_amended_witness :
    insert_with_axis c4m1 1 ⟨0, 1, 1⟩ 0 = RustRes.ok (some ⟨0, 1, 1⟩, c4m1) :=
  (lsph_c4_replace_amended c4m1 1 ⟨0, 1, 1⟩ 0 (by decide)).1
    (by with_unfolding_all decide)

/-- `position` misses exactly when no element is equal to the probe. -/
lemma position_eq_none_iff (p : Point) :
    ∀ b : List Point, position (fun ek => ek == p) b = none ↔ p ∉ b := by
  intro b
  induction b with
  | nil => simp [position]
  | cons a as ih =>
    by_cases h : a = p
    · subst h; simp [position]
    · have hb : (a == p) = false := by simpa using h
      simp [position, hb, ih, Ne.symm h]

/-- A hit of `position` indexes an element equal to the probe. -/
lemma position_some_get (p : Point) :
    ∀ (b : List Point) (i : Nat),
      position (fun ek => ek == p) b = some i → b.get? i = some p := by
  intro b
  induction b with
  | nil => intro i h; simp [position] at h
  | cons a as ih =>
    intro i h
    rw [position] at h
    by_cases hb : (a == p) = true
    · rw [if_pos hb] at h
      have h0 : (0 : Nat) = i := by simpa using h
      have ha : a = p := by simpa using hb
      subst ha
      simp [← h0]
    · rw [if_neg hb] at h
      cases hpos : position (fun ek => ek == p) as with
      | none => rw [hpos] at h; simp at h
      | some j =>
        rw [hpos] at h
        have hij : j + 1 = i := by simpa using h
        subst hij
        simpa using ih j hpos

/-- C5 (amended): when the item count is already 0 — a reachable state, since
a failed remove still decrements — `remove` underflows the `usize` count and
panics instead of completing; when the count is positive, `remove` returns
the stored point equal (in all fields) to `p` exactly when one is stored in
`p`'s bucket, but the item count is decremented UNCONDITIONALLY — even on a
miss — while on a miss the table itself is unchanged. -/
theorem lsph_c5_remove_amended (m : LearnedHashMap) (p : Point)
    (hlen : m.table.buckets.length ≠ 0) :
    (m.items = 0 → remove m p = RustRes.panicked) ∧
    (m.items ≠ 0 →
      ∃ r m2, remove m p = RustRes.ok (r, m2) ∧
        m2.items = m.items - 1 ∧
        ((p ∈ (m.table.buckets.get? (make_hash_point m.hasher (p.x, p.y) %
            m.table.buckets.length)).getD []) ↔ r = some p) ∧
        (r = none → m2.table = m.table)) := by
  constructor
  · intro h0
    simp only [remove, if_pos h0]
  · intro hitems
    cases hpos : position (fun ek => ek == p)
        ((m.table.buckets.get? (make_hash_point m.hasher (p.x, p.y) %
          m.table.buckets.length)).getD []) with
    | none =>
      refine ⟨none, { m with items := m.items - 1 }, ?_, rfl, ?_, fun _ => rfl⟩
      · simp only [remove, Table.remove_entry, if_neg hitems, if_neg hlen, hpos]
      · simp only [position_eq_none_iff p _ |>.mp hpos, false_iff]
        intro hcon
        exact Option.noConfusion hcon
    | some i =>
      have hget := position_some_get p _ i hpos
      refine ⟨some p,
        { m with
          items := m.items - 1,
          table := { m.table with
            buckets := m.table.buckets.set
              (make_hash_point m.hasher (p.x, p.y) % m.table.buckets.length)
              (swapRemove ((m.table.buckets.get? (make_hash_point m.hasher (p.x, p.y) %
                m.table.buckets.length)).getD []) i) } }, ?_, rfl, ?_, ?_⟩
      · simp only [remove, Table.remove_entry, if_neg hitems, if_neg hlen, hpos,
          hget, Option.getD_some]
      · exact ⟨fun _ => rfl, fun _ => List.get?_mem hget⟩
      · intro hcon
        exact Option.noConfusion hcon

/-- Witness: the one-point map `c4m1` (item count 1), removing its stored
point. -/
theorem lsph_c5_remove_amended_witness :
    (c4m1.items = 0 → remove c4m1 ⟨0, 1, 1⟩ = RustRes.panicked) ∧
    (c4m1.items ≠ 0 →
      ∃ r m2, remove c4m1 ⟨0, 1, 1⟩ = RustRes.ok (r, m2) ∧
        m2.items = c4m1.items - 1 ∧
        ((⟨0, 1, 1⟩ : Point) ∈ (c4m1.table.buckets.get?
            (make_hash_point c4m1.hasher (1, 1) % c4m1.table.buckets.length)).getD [] ↔
          r = some ⟨0, 1, 1⟩) ∧
        (r = none → m2.table = c4m1.table)) :=
  lsph_c5_remove_amended c4m1 ⟨0, 1, 1⟩ (by decide)

/-- C10: whenever a single `insert` finds (after the optional load-factor
resize, final state `m1`) that the point's hash reaches the current capacity,
any normal completion returns `None` — the result of the inner
`insert_with_axis` (which may well have replaced a coordinate-equal point) is
discarded — and the final state is produced by `rehash`, which drains every
stored point and feeds the whole set back through `batch_insert`, refitting
the model and possibly changing the selected axis. -/
theorem lsph_c10_insert_overflow (m m1 : LearnedHashMap) (p : Point)
    (hpre : preResize m = RustRes.ok m1)
    (hcap : m1.table.cap ≤ make_hash_point m1.hasher (p.x, p.y)) :
    ∀ r m4, insert m p = RustRes.ok (r, m4) →
      r = none ∧
      ∃ m2 r3 m3,
        resize_with_capacity m1 (make_hash_point m1.hasher (p.x, p.y) * 2) =
          RustRes.ok m2 ∧
        insert_with_axis m2 (if m1.hasher.sort_by_x then p.x else p.y) p
          (make_hash_point m1.hasher (p.x, p.y)) = RustRes.ok (r3, m3) ∧
        rehash m3 = RustRes.ok m4 := by
  intro r m4 hins
  rw [insert, hpre] at hins
  simp only [if_pos hcap] at hins
  cases hrw : resize_with_capacity m1 (make_hash_point m1.hasher (p.x, p.y) * 2) with
  | panicked => simp only [hrw] at hins; exact RustRes.noConfusion hins
  | ok m2 =>
    simp only [hrw] at hins
    cases hiwa : insert_with_axis m2 (if m1.hasher.sort_by_x then p.x else p.y) p
        (make_hash_point m1.hasher (p.x, p.y)) with
    | panicked => simp only [hiwa] at hins; exact RustRes.noConfusion hins
    | ok rm =>
      obtain ⟨r3, m3⟩ := rm
      simp only [hiwa] at hins
      cases hreh : rehash m3 with
      | panicked => simp only [hreh] at hins; exact RustRes.noConfusion hins
      | ok m4x =>
        simp only [hreh, RustRes.ok.injEq, Prod.mk.injEq] at hins
        obtain ⟨hr, hm⟩ := hins
        subst hm
        exact ⟨hr.symm, m2, r3, m3, rfl, hiwa, hreh⟩

set_option maxRecDepth 40000 in
/-- Witness: inserting `(100, 1)` into the five-point map `st5` takes the
overflow branch (hash 99 ≥ capacity 10) and returns `None`. -/
theorem lsph_c10_insert_overflow_witness :
    resultOfInsert (insert st5 ⟨7, 100, 1⟩) = some none := by
  cases hins : insert st5 ⟨7, 100, 1⟩ with
  | panicked => exact absurd hins (by with_unfolding_all decide)
  | ok rm =>
    have h := (lsph_c10_insert_overflow st5 st5 ⟨7, 100, 1⟩
      (by with_unfolding_all decide) (by with_unfolding_all decide)
      rm.1 rm.2 (by rw [hins])).1
    simp [resultOfInsert, h]

/-- C1 (amended): `get (p.x, p.y)` returns a point with `p`'s coordinates for
every stored point `p` that resides in the bucket at its raw hash index with
the hash within the capacity — the placement `batch_insert` produces whenever
the model does not overshoot the table (the counterexample shows the
overshooting case fails). -/
theorem lsph_c1_roundtrip_amended (m : LearnedHashMap) (p : Point) (b : List Point)
    (hb : m.table.buckets.get? (make_hash_point m.hasher (p.x, p.y)) = some b)
    (hmem : p ∈ b)
    (hcap : make_hash_point m.hasher (p.x, p.y) ≤ m.table.cap) :
    ∃ q : Point, get m (p.x, p.y) = RustRes.ok (some q) ∧ q.x = p.x ∧ q.y = p.y := by
  have hfind : ((b.find? (fun ep => ep.x == p.x && ep.y == p.y)).isSome) = true := by
    apply List.find?_isSome.mpr
    exact ⟨p, hmem, by simp⟩
  obtain ⟨q, hq⟩ := Option.isSome_iff_exists.mp hfind
  have hprop := List.find?_some hq
  simp only [Bool.and_eq_true, beq_iff_eq] at hprop
  refine ⟨q, ?_, hprop.1, hprop.2⟩
  simp only [get, find_by_hash, if_neg (not_lt.mpr hcap), hb, hq]

set_option maxRecDepth 40000 in
/-- Witness: the stored point `(1, 1)` of `st5` round-trips through `get`. -/
theorem lsph_c1_roundtrip_amended_witness :
    ∃ q : Point, get st5 (1, 1) = RustRes.ok (some q) ∧ q.x = 1 ∧ q.y = 1 :=
  lsph_c1_roundtrip_amended st5 ⟨0, 1, 1⟩ [⟨0, 1, 1⟩]
    (by with_unfolding_all decide) (by with_unfolding_all decide)
    (by with_unfolding_all decide)

/-- `reset_id` overwrites ids with positions: the id list becomes `0..n-1`. -/
lemma reset_id_map_id (l : List Point) :
    (reset_id l).map Point.id = List.range l.length := by
  unfold reset_id
  rw [List.map_map]
  exact List.enum_map_fst l

/-- Mapping an id-insensitive function over `reset_id` ignores the id reset. -/
lemma map_reset_id {β : Type} (f : Point → β) (hf : ∀ p i, f { p with id := i } = f p)
    (l : List Point) : (reset_id l).map f = l.map f := by
  unfold reset_id
  rw [List.map_map]
  have hcomp : (f ∘ fun ip : Nat × Point => { ip.2 with id := ip.1 }) = (f ∘ Prod.snd) := by
    funext ip
    exact hf ip.2 ip.1
  rw [hcomp, ← List.map_map, List.enum_map_snd]

/-- `extract_id` is the id list cast to the float type. -/
lemma extract_id_eq (l : List Point) :
    extract_id l = (l.map Point.id).map (fun n : Nat => (n : Rat)) := by
  rw [List.map_map]
  rfl

/-- C7 (amended): for a non-empty batch the Trainer sorts the batch ascending
by the larger-variance axis and overwrites ids with 0-based ranks, but the
training INPUTS are the chosen-axis coordinates in the batch's ORIGINAL
(pre-sort) order — the i-th input is the original i-th point's coordinate —
while the i-th target is i.  The sorted batch is a coordinate-permutation of
the original. -/
theorem lsph_c7_trainer_amended (ps : List Point) (_hne : ps ≠ []) :
    (Trainer.with_points ps).1.train_x =
      (match (Trainer.with_points ps).1.axis with
       | Axis.X => extract_x ps
       | Axis.Y => extract_y ps) ∧
    (Trainer.with_points ps).1.train_y =
      (List.range ps.length).map (fun i : Nat => (i : Rat)) ∧
    ((Trainer.with_points ps).2).map Point.id = List.range ps.length ∧
    List.Pairwise (· ≤ ·)
      (match (Trainer.with_points ps).1.axis with
       | Axis.X => extract_x (Trainer.with_points ps).2
       | Axis.Y => extract_y (Trainer.with_points ps).2) ∧
    List.Perm (((Trainer.with_points ps).2).map (fun q => (q.x, q.y)))
      (ps.map (fun q => (q.x, q.y))) := by
  by_cases hvar : variance (extract_x ps) > variance (extract_y ps)
  · simp only [Trainer.with_points, if_pos hvar]
    refine ⟨by trivial, ?_, ?_, ?_, ?_⟩
    · rw [extract_id_eq, reset_id_map_id]
      unfold sort_by_x
      rw [List.length_mergeSort]
    · rw [reset_id_map_id]
      unfold sort_by_x
      rw [List.length_mergeSort]
    · have hx : extract_x (reset_id (sort_by_x ps)) = extract_x (sort_by_x ps) :=
        map_reset_id Point.x (fun _ _ => rfl) _
      rw [hx]
      unfold extract_x sort_by_x
      rw [List.pairwise_map]
      have hsorted : List.Pairwise
          (fun a b : Point => (decide (a.x ≤ b.x)) = true)
          (ps.mergeSort (fun a b => decide (a.x ≤ b.x))) :=
        List.sorted_mergeSort
          (by intro a b c hab hbc; simp at hab hbc ⊢; exact le_trans hab hbc)
          (by intro a b; simp [le_total]) ps
      exact hsorted.imp (fun hab => by simpa using hab)
    · have hxy : (reset_id (sort_by_x ps)).map (fun q => (q.x, q.y)) =
          (sort_by_x ps).map (fun q => (q.x, q.y)) :=
        map_reset_id (fun q => (q.x, q.y)) (fun _ _ => rfl) _
      rw [hxy]
      exact List.Perm.map _ (List.mergeSort_perm ps _)
  · simp only [Trainer.with_points, if_neg hvar]
    refine ⟨by trivial, ?_, ?_, ?_, ?_⟩
    · rw [extract_id_eq, reset_id_map_id]
      unfold sort_by_y
      rw [List.length_mergeSort]
    · rw [reset_id_map_id]
      unfold sort_by_y
      rw [List.length_mergeSort]
    · have hy : extract_y (reset_id (sort_by_y ps)) = extract_y (sort_by_y ps) :=
        map_reset_id Point.y (fun _ _ => rfl) _
      rw [hy]
      unfold extract_y sort_by_y
      rw [List.pairwise_map]
      have hsorted : List.Pairwise
          (fun a b : Point => (decide (a.y ≤ b.y)) = true)
          (ps.mergeSort (fun a b => decide (a.y ≤ b.y))) :=
        List.sorted_mergeSort
          (by intro a b c hab hbc; simp at hab hbc ⊢; exact le_trans hab hbc)
          (by intro a b; simp [le_total]) ps
      exact hsorted.imp (fun hab => by simpa using hab)
    · have hxy : (reset_id (sort_by_y ps)).map (fun q => (q.x, q.y)) =
          (sort_by_y ps).map (fun q => (q.x, q.y)) :=
        map_reset_id (fun q => (q.x, q.y)) (fun _ _ => rfl) _
      rw [hxy]
      exact List.Perm.map _ (List.mergeSort_perm ps _)

/-- Witness: the amended trainer description instantiated on the repository's
own trainer-test batch. -/
theorem lsph_c7_trainer_amended_witness :
    (Trainer.with_points c7data).1.train_y =
      (List.range c7data.length).map (fun i : Nat => (i : Rat)) :=
  (lsph_c7_trainer_amended c7data (by decide)).2.1

/-- A nonnegative coefficient makes the learned hash monotone in the
coordinate (the floor and the saturating cast preserve order). -/
lemma make_hash_mono (h : LearnedHasher) (hc : 0 ≤ h.model.coefficient)
    {a b : Rat} (hab : a ≤ b) : make_hash h a ≤ make_hash h b := by
  unfold make_hash LinearModel.predict
  have hle : a * h.model.coefficient + h.model.intercept ≤
      b * h.model.coefficient + h.model.intercept :=
    add_le_add_right (mul_le_mul_of_nonneg_right hab hc) _
  exact Int.toNat_le_toNat (Int.floor_le_floor hle)

/-- The range scan succeeds when every scanned index is in bounds. -/
lemma collectRange_ok (buckets : List (List Point)) (bl tr : Rat × Rat) :
    ∀ idxs : List Nat, (∀ i ∈ idxs, i < buckets.length) →
      ∃ out, collectRange buckets bl tr idxs = RustRes.ok out := by
  intro idxs
  induction idxs with
  | nil => intro _; exact ⟨[], rfl⟩
  | cons i rest ih =>
    intro hall
    obtain ⟨out, hout⟩ := ih (fun j hj => hall j (List.mem_cons_of_mem _ hj))
    have hi : i < buckets.length := hall i (List.mem_cons_self _ _)
    obtain ⟨b, hb⟩ : ∃ b, buckets.get? i = some b := by
      rw [List.get?_eq_getElem?]
      exact ⟨buckets[i], List.getElem?_eq_getElem hi⟩
    exact ⟨b.filter (inBox bl tr) ++ out, by simp only [collectRange, hb, hout]⟩

/-- Every point produced by the range scan passes the box filter. -/
lemma collectRange_sound (buckets : List (List Point)) (bl tr : Rat × Rat) :
    ∀ (idxs : List Nat) (out : List Point),
      collectRange buckets bl tr idxs = RustRes.ok out →
      ∀ q ∈ out, inBox bl tr q = true := by
  intro idxs
  induction idxs with
  | nil =>
    intro out h q hq
    simp only [collectRange, RustRes.ok.injEq] at h
    subst h
    simp at hq
  | cons i rest ih =>
    intro out h q hq
    rw [collectRange] at h
    cases hb : buckets.get? i with
    | none => rw [hb] at h; exact RustRes.noConfusion h
    | some b =>
      rw [hb] at h
      cases hrec : collectRange buckets bl tr rest with
      | panicked => rw [hrec] at h; exact RustRes.noConfusion h
      | ok acc =>
        rw [hrec] at h
        obtain rfl := (RustRes.ok.inj h).symm
        rcases List.mem_append.mp hq with hq1 | hq2
        · exact List.of_mem_filter hq1
        · exact ih acc hrec q hq2

/-- A stored in-box point in a scanned bucket appears in the scan's output. -/
lemma collectRange_mem (buckets : List (List Point)) (bl tr : Rat × Rat) :
    ∀ (idxs : List Nat) (out : List Point),
      collectRange buckets bl tr idxs = RustRes.ok out →
      ∀ i ∈ idxs, ∀ b, buckets.get? i = some b →
        ∀ q ∈ b, inBox bl tr q = true → q ∈ out := by
  intro idxs
  induction idxs with
  | nil => intro out _ i hi; simp at hi
  | cons j rest ih =>
    intro out h i hi b hb q hq hbox
    rw [collectRange] at h
    cases hbj : buckets.get? j with
    | none => rw [hbj] at h; exact RustRes.noConfusion h
    | some bj =>
      rw [hbj] at h
      cases hrec : collectRange buckets bl tr rest with
      | panicked => rw [hrec] at h; exact RustRes.noConfusion h
      | ok acc =>
        rw [hrec] at h
        obtain rfl := (RustRes.ok.inj h).symm
        rcases List.mem_cons.mp hi with rfl | hirest
        · have hbeq : bj = b := by rw [hbj] at hb; exact Option.some.inj hb
          subst hbeq
          exact List.mem_append.mpr (Or.inl (List.mem_filter.mpr ⟨hq, hbox⟩))
        · exact List.mem_append.mpr (Or.inr (ih acc hrec i hirest b hb q hq hbox))


/-- Anatomy of the tail of `range_search`: when the scan-and-filter pipeline
returns a list, its members pass the box filter. -/
lemma range_sound_aux (buckets : List (List Point)) (bl tr : Rat × Rat)
    (idxs : List Nat) (r : List Point) :
    (match collectRange buckets bl tr idxs with
     | RustRes.panicked => RustRes.panicked
     | RustRes.ok result =>
        if result.isEmpty then RustRes.ok none else RustRes.ok (some result)) =
      RustRes.ok (some r) →
    ∀ q ∈ r, inBox bl tr q = true := by
  intro h q hq
  cases hcol : collectRange buckets bl tr idxs with
  | panicked => rw [hcol] at h; exact RustRes.noConfusion h
  | ok result =>
    rw [hcol] at h
    cases result with
    | nil => simp at h
    | cons a as =>
      simp only [List.isEmpty_cons, Bool.false_eq_true, if_false,
        RustRes.ok.injEq, Option.some.injEq] at h
      subst h
      exact collectRange_sound buckets bl tr idxs _ hcol q hq

/-- C3 (amended): every point returned by `range_search` lies in the box
(soundness, unconditional); and a stored point inside the box appears in the
result (completeness) provided the fitted model is monotonic (nonnegative
coefficient), the point resides in the bucket at its raw (unwrapped) hash,
that hash is within the table, and the top-right corner's hash is not exactly
the capacity (in which case the scan panics — see the counterexample). -/
theorem lsph_c3_range_search_amended :
    (∀ (m : LearnedHashMap) (bl tr : Rat × Rat) (l : List Point),
        range_search m bl tr = RustRes.ok (some l) →
        ∀ q ∈ l, inBox bl tr q = true) ∧
    (∀ (m : LearnedHashMap) (bl tr : Rat × Rat) (p : Point) (b : List Point),
        0 ≤ m.hasher.model.coefficient →
        m.table.cap = m.table.buckets.length →
        m.table.buckets.get? (make_hash_point m.hasher (p.x, p.y)) = some b →
        p ∈ b →
        make_hash_point m.hasher (p.x, p.y) < m.table.buckets.length →
        make_hash_point m.hasher tr ≠ m.table.cap →
        inBox bl tr p = true →
        ∃ l, range_search m bl tr = RustRes.ok (some l) ∧ p ∈ l) := by
  constructor
  · intro m bl tr l h q hq
    rw [range_search] at h
    split at h <;>
      (first
        | (split at h
           · exact absurd h (by simp)
           · exact range_sound_aux _ _ _ _ _ h q hq))
  · intro m bl tr p b hc hcaplen hb hmem hlt htr hbox
    have hbox2 := hbox
    simp only [inBox, Bool.and_eq_true, decide_eq_true_eq] at hbox2
    obtain ⟨⟨⟨hblx, hxtr⟩, hbly⟩, hytr⟩ := hbox2
    have hp_le_tr : make_hash_point m.hasher (p.x, p.y) ≤ make_hash_point m.hasher tr := by
      unfold make_hash_point
      cases hsb : m.hasher.sort_by_x <;> simp only [if_pos, if_neg, Bool.false_eq_true,
        if_false, if_true]
      · exact make_hash_mono m.hasher hc hytr
      · exact make_hash_mono m.hasher hc hxtr
    have hbl_le_p : make_hash_point m.hasher bl ≤ make_hash_point m.hasher (p.x, p.y) := by
      unfold make_hash_point
      cases hsb : m.hasher.sort_by_x <;> simp only [if_pos, if_neg, Bool.false_eq_true,
        if_false, if_true]
      · exact make_hash_mono m.hasher hc hbly
      · exact make_hash_mono m.hasher hc hblx
    have hright : (if m.table.cap < make_hash_point m.hasher tr then m.table.cap - 1
        else make_hash_point m.hasher tr) < m.table.buckets.length ∧
        make_hash_point m.hasher (p.x, p.y) ≤
          (if m.table.cap < make_hash_point m.hasher tr then m.table.cap - 1
           else make_hash_point m.hasher tr) := by
      split
      · constructor
        · omega
        · omega
      · constructor
        · have : make_hash_point m.hasher tr ≤ m.table.cap := by omega
          omega
        · exact hp_le_tr
    obtain ⟨hrlt, hpr⟩ := hright
    have hcond : ¬(m.table.cap < make_hash_point m.hasher bl ∨
        (if m.table.cap < make_hash_point m.hasher tr then m.table.cap - 1
         else make_hash_point m.hasher tr) < make_hash_point m.hasher bl) := by
      push_neg
      constructor
      · omega
      · omega
    have hallin : ∀ i ∈ List.range' (make_hash_point m.hasher bl)
        ((if m.table.cap < make_hash_point m.hasher tr then m.table.cap - 1
          else make_hash_point m.hasher tr) + 1 - make_hash_point m.hasher bl),
        i < m.table.buckets.length := by
      intro i hi
      have := List.mem_range'_1.mp hi
      omega
    obtain ⟨out, hout⟩ := collectRange_ok m.table.buckets bl tr _ hallin
    have hpmem : p ∈ out := by
      refine collectRange_mem m.table.buckets bl tr _ out hout
        (make_hash_point m.hasher (p.x, p.y)) ?_ b hb p hmem hbox
      rw [List.mem_range'_1]
      omega
    have hne : out.isEmpty = false := by
      cases out with
      | nil => simp at hpmem
      | cons a as => rfl
    refine ⟨out, ?_, hpmem⟩
    rw [range_search]
    rw [if_neg hcond]
    simp only [hout, hne, Bool.false_eq_true, if_false]

set_option maxRecDepth 40000 in
/-- Witness: the amended range-search statement instantiated on `st5` with
the box `(1,1) – (3.5,3)`, finding the stored point `(1, 1)`. -/
theorem lsph_c3_range_search_amended_witness :
    ∃ l, range_search st5 (1, 1) ((7 : Rat)/2, 3) = RustRes.ok (some l) ∧
      (⟨0, 1, 1⟩ : Point) ∈ l :=
  lsph_c3_range_search_amended.2 st5 (1, 1) ((7 : Rat)/2, 3) ⟨0, 1, 1⟩ [⟨0, 1, 1⟩]
    (by with_unfolding_all decide) (by with_unfolding_all decide)
    (by with_unfolding_all decide) (by with_unfolding_all decide)
    (by with_unfolding_all decide) (by with_unfolding_all decide)
    (by with_unfolding_all decide)

/-- Elements of `swap_remove` come from the original bucket. -/
lemma mem_swapRemove (l : List Point) (i : Nat) (q : Point) :
    q ∈ swapRemove l i → q ∈ l := by
  intro hq
  unfold swapRemove at hq
  have h1 : q ∈ l.set i (l.getLast?.getD Point.default) :=
    List.mem_of_mem_dropLast hq
  rcases List.mem_or_eq_of_mem_set h1 with h2 | h2
  · exact h2
  · by_cases hne : l = []
    · subst hne
      simp [swapRemove] at hq
    · rw [List.getLast?_eq_getLast l hne] at h2
      simp only [Option.getD_some] at h2
      subst h2
      exact List.getLast_mem hne

/-- The redistribution loop of a resize places every point at its raw hash
index: if the incoming buckets satisfy that, so do the outgoing ones. -/
lemma placeAll_spec (h : LearnedHasher) :
    ∀ (ps : List Point) (buckets out : List (List Point)),
      placeAll h buckets ps = RustRes.ok out →
      (∀ i b, buckets.get? i = some b →
        ∀ q ∈ b, make_hash_point h (q.x, q.y) = i) →
      ((∀ i b, out.get? i = some b →
          ∀ q ∈ b, make_hash_point h (q.x, q.y) = i) ∧
        out.length = buckets.length) := by
  intro ps
  induction ps with
  | nil =>
    intro buckets out hput hin
    rw [placeAll] at hput
    obtain rfl := RustRes.ok.inj hput
    exact ⟨hin, rfl⟩
  | cons p rest ih =>
    intro buckets out hput hin
    rw [placeAll] at hput
    cases hb : buckets.get? (make_hash_point h (p.x, p.y)) with
    | none => rw [hb] at hput; exact RustRes.noConfusion hput
    | some b =>
      rw [hb] at hput
      have hlt : make_hash_point h (p.x, p.y) < buckets.length := by
        by_contra hge
        rw [List.get?_eq_none.mpr (Nat.le_of_not_lt hge)] at hb
        exact Option.noConfusion hb
      have hin2 : ∀ i bb,
          (buckets.set (make_hash_point h (p.x, p.y)) (b ++ [p])).get? i = some bb →
          ∀ q ∈ bb, make_hash_point h (q.x, q.y) = i := by
        intro i bb hbb q hq
        by_cases hi : make_hash_point h (p.x, p.y) = i
        · subst hi
          rw [List.get?_eq_getElem?, List.getElem?_set_self hlt] at hbb
          obtain rfl : b ++ [p] = bb := Option.some.inj hbb
          rcases List.mem_append.mp hq with h1 | h1
          · exact hin _ b hb q h1
          · obtain rfl : q = p := by simpa using h1
            rfl
        · rw [List.get?_eq_getElem?, List.getElem?_set_ne hi,
            ← List.get?_eq_getElem?] at hbb
          exact hin i bb hbb q hq
      have hspec := ih _ _ hput hin2
      exact ⟨hspec.1, by rw [hspec.2, List.length_set]⟩

/-- A completed `resize_with_capacity` establishes the placement invariant
from scratch and preserves hasher and item count. -/
lemma resize_with_capacity_spec (m : LearnedHashMap) (target : Nat)
    (m2 : LearnedHashMap) (h : resize_with_capacity m target = RustRes.ok m2) :
    PlacementInv m2 ∧ m2.hasher = m.hasher ∧ m2.items = m.items ∧
      m2.table.buckets.length = target ∧ m2.table.cap = target := by
  rw [resize_with_capacity] at h
  cases hput : placeAll m.hasher (List.replicate target []) m.table.buckets.flatten with
  | panicked => rw [hput] at h; exact RustRes.noConfusion h
  | ok bs =>
    rw [hput] at h
    obtain rfl := RustRes.ok.inj h
    have hspec := placeAll_spec m.hasher _ _ _ hput (by
      intro i b hbib q hq
      have hb : b = [] := by
        rw [List.get?_eq_getElem?, List.getElem?_replicate] at hbib
        split at hbib
        · exact (Option.some.inj hbib).symm
        · exact Option.noConfusion hbib
      subst hb
      simp at hq)
    have hlen : bs.length = target := by
      rw [hspec.2, List.length_replicate]
    refine ⟨?_, rfl, rfl, hlen, rfl⟩
    intro i hi q hq
    have hilt : i < bs.length := by
      simpa [hlen] using List.mem_range.mp hi
    cases hbs : bs.get? i with
    | none => rw [hbs] at hq; simp at hq
    | some b =>
      rw [hbs] at hq
      simp only [Option.getD_some] at hq
      have := hspec.1 i b hbs q hq
      rw [this]
      exact (Nat.mod_eq_of_lt hilt).symm

/-- `insert_with_axis`, called with the point's own hash, preserves the
placement invariant. -/
lemma insert_with_axis_spec (m : LearnedHashMap) (pv : Rat) (p : Point)
    (r : Option Point) (m2 : LearnedHashMap) (hinv : PlacementInv m)
    (h : insert_with_axis m pv p (make_hash_point m.hasher (p.x, p.y)) =
      RustRes.ok (r, m2)) :
    PlacementInv m2 ∧ m2.hasher = m.hasher := by
  simp only [insert_with_axis] at h
  split at h
  · exact RustRes.noConfusion h
  · rename_i hlen0
    cases hscan : insertScan
        (if m.hasher.sort_by_x then (fun ep => decide (ep.x < p.x))
         else (fun ep => decide (ep.y < pv))) p
        ((m.table.buckets.get? (make_hash_point m.hasher (p.x, p.y) %
          m.table.buckets.length)).getD []) 0 with
    | none =>
      simp only [hscan] at h
      have hpair := RustRes.ok.inj h
      injection hpair with h1 h2
      subst h1
      subst h2
      exact ⟨hinv, rfl⟩
    | some idx =>
      simp only [hscan] at h
      have hpair := RustRes.ok.inj h
      injection hpair with h1 h2
      subst h1
      subst h2
      refine ⟨?_, rfl⟩
      intro i hi q hq
      simp only [List.length_set] at hi ⊢
      have hbi : make_hash_point m.hasher (p.x, p.y) % m.table.buckets.length <
          m.table.buckets.length := Nat.mod_lt _ (Nat.pos_of_ne_zero hlen0)
      by_cases hieq : make_hash_point m.hasher (p.x, p.y) % m.table.buckets.length = i
      · subst hieq
        rw [List.get?_eq_getElem?, List.getElem?_set_self hbi] at hq
        simp only [Option.getD_some] at hq
        have hidx : idx ≤ ((m.table.buckets.get? (make_hash_point m.hasher (p.x, p.y) %
            m.table.buckets.length)).getD []).length := by
          have := insertScan_le _ _ _ _ _ hscan
          omega
        rcases (List.mem_insertIdx hidx).mp hq with rfl | hqb
        · rfl
        · exact hinv _ hi q hqb
      · rw [List.get?_eq_getElem?, List.getElem?_set_ne hieq,
          ← List.get?_eq_getElem?] at hq
        exact hinv i hi q hq

/-- `resize` establishes the placement invariant and preserves the hasher. -/
lemma resize_spec (m m2 : LearnedHashMap) (h : resize m = RustRes.ok m2) :
    PlacementInv m2 ∧ m2.hasher = m.hasher := by
  rw [resize] at h
  have hs := resize_with_capacity_spec m _ m2 h
  exact ⟨hs.1, hs.2.1⟩

/-- `preResize` (the load-factor check at the top of the insert paths)
preserves the placement invariant and the hasher. -/
lemma preResize_spec (m m1 : LearnedHashMap) (hinv : PlacementInv m)
    (h : preResize m = RustRes.ok m1) :
    PlacementInv m1 ∧ m1.hasher = m.hasher := by
  rw [preResize] at h
  split at h
  · exact resize_spec m m1 h
  · obtain rfl := RustRes.ok.inj h
    exact ⟨hinv, rfl⟩

/-- `insert_inner` preserves the placement invariant and the hasher. -/
lemma insert_inner_spec (m : LearnedHashMap) (p : Point)
    (r : Option Point) (m2 : LearnedHashMap) (hinv : PlacementInv m)
    (h : insert_inner m p = RustRes.ok (r, m2)) :
    PlacementInv m2 ∧ m2.hasher = m.hasher := by
  simp only [insert_inner] at h
  cases hpre : preResize m with
  | panicked => rw [hpre] at h; exact RustRes.noConfusion h
  | ok m1 =>
    simp only [hpre] at h
    obtain ⟨hinv1, hh1⟩ := preResize_spec m m1 hinv hpre
    obtain ⟨hinv2, hh2⟩ := insert_with_axis_spec m1 _ p r m2 hinv1 h
    exact ⟨hinv2, hh2.trans hh1⟩

/-- The per-point loop of `batch_insert_inner` preserves the invariant. -/
lemma insertAll_spec :
    ∀ (ps : List Point) (m m2 : LearnedHashMap), PlacementInv m →
      insertAll m ps = RustRes.ok m2 →
      PlacementInv m2 ∧ m2.hasher = m.hasher := by
  intro ps
  induction ps with
  | nil =>
    intro m m2 hinv h
    rw [insertAll] at h
    obtain rfl := RustRes.ok.inj h
    exact ⟨hinv, rfl⟩
  | cons p rest ih =>
    intro m m2 hinv h
    rw [insertAll] at h
    cases hins : insert_inner m p with
    | panicked => rw [hins] at h; exact RustRes.noConfusion h
    | ok rm =>
      obtain ⟨r, m1⟩ := rm
      simp only [hins] at h
      obtain ⟨hinv1, hh1⟩ := insert_inner_spec m p r m1 hinv hins
      obtain ⟨hinv2, hh2⟩ := ih m1 m2 hinv1 h
      exact ⟨hinv2, hh2.trans hh1⟩

/-- `batch_insert_inner` establishes the invariant from scratch (its leading
resize rebuilds the table). -/
lemma batch_insert_inner_spec (m m2 : LearnedHashMap) (ps : List Point)
    (h : batch_insert_inner m ps = RustRes.ok m2) :
    PlacementInv m2 := by
  rw [batch_insert_inner] at h
  cases hrc : resize_with_capacity m ps.length with
  | panicked => rw [hrc] at h; exact RustRes.noConfusion h
  | ok m1 =>
    simp only [hrc] at h
    exact (insertAll_spec ps m1 m2 (resize_with_capacity_spec m _ m1 hrc).1 h).1

/-- A completed `batch_insert` establishes the invariant. -/
lemma batch_insert_spec (m m2 : LearnedHashMap) (ps ps2 : List Point)
    (h : batch_insert m ps = RustRes.ok (m2, ps2)) :
    PlacementInv m2 := by
  simp only [batch_insert] at h
  split at h
  · exact RustRes.noConfusion h
  · split at h
    · exact RustRes.noConfusion h
    · split at h
      · exact RustRes.noConfusion h
      · rename_i m2' heq
        have hpair := RustRes.ok.inj h
        injection hpair with h1 h2
        subst h1
        exact batch_insert_inner_spec _ _ _ heq

/-- `rehash` establishes the invariant (it is a drain plus `batch_insert`). -/
lemma rehash_spec (m m2 : LearnedHashMap) (h : rehash m = RustRes.ok m2) :
    PlacementInv m2 := by
  simp only [rehash] at h
  split at h
  · exact RustRes.noConfusion h
  · rename_i m2' ps2 heq
    obtain rfl := RustRes.ok.inj h
    exact batch_insert_spec _ _ _ _ heq

/-- `insert` preserves the placement invariant. -/
lemma insert_spec (m : LearnedHashMap) (p : Point) (r : Option Point)
    (m2 : LearnedHashMap) (hinv : PlacementInv m)
    (h : insert m p = RustRes.ok (r, m2)) :
    PlacementInv m2 := by
  simp only [insert] at h
  cases hpre : preResize m with
  | panicked => rw [hpre] at h; exact RustRes.noConfusion h
  | ok m1 =>
    simp only [hpre] at h
    obtain ⟨hinv1, hh1⟩ := preResize_spec m m1 hinv hpre
    split at h
    · split at h
      · exact RustRes.noConfusion h
      · split at h
        · exact RustRes.noConfusion h
        · split at h
          · exact RustRes.noConfusion h
          · rename_i m4 hre
            have hpair := RustRes.ok.inj h
            injection hpair with h1 h2
            subst h2
            exact rehash_spec _ _ hre
    · exact (insert_with_axis_spec m1 _ p r m2 hinv1 h).1

/-- `Table.remove_entry` never lengthens the table and only shrinks buckets:
every surviving point was already in the same bucket. -/
lemma remove_entry_table (t : Table) (hash : Nat) (p : Point) (r : Option Point)
    (t2 : Table) (h : t.remove_entry hash p = RustRes.ok (r, t2)) :
    t2.buckets.length = t.buckets.length ∧
      ∀ i q, q ∈ (t2.buckets.get? i).getD [] → q ∈ (t.buckets.get? i).getD [] := by
  simp only [Table.remove_entry] at h
  split at h
  · exact RustRes.noConfusion h
  · rename_i hlen0
    split at h
    · have hpair := RustRes.ok.inj h
      injection hpair with h1 h2
      subst h2
      exact ⟨rfl, fun i q hq => hq⟩
    · rename_i i hpos
      have hpair := RustRes.ok.inj h
      injection hpair with h1 h2
      subst h2
      dsimp only
      refine ⟨List.length_set _ _ _, ?_⟩
      intro j q hq
      by_cases hji : hash % t.buckets.length = j
      · subst hji
        have hlt : hash % t.buckets.length < t.buckets.length :=
          Nat.mod_lt _ (Nat.pos_of_ne_zero hlen0)
        rw [List.get?_eq_getElem?, List.getElem?_set_self hlt] at hq
        simp only [Option.getD_some] at hq
        exact mem_swapRemove _ _ _ hq
      · rw [List.get?_eq_getElem?, List.getElem?_set_ne hji,
          ← List.get?_eq_getElem?] at hq
        exact hq

/-- `remove` preserves the placement invariant. -/
lemma remove_spec (m : LearnedHashMap) (p : Point) (r : Option Point)
    (m2 : LearnedHashMap) (hinv : PlacementInv m)
    (h : remove m p = RustRes.ok (r, m2)) :
    PlacementInv m2 := by
  simp only [remove] at h
  split at h
  · exact RustRes.noConfusion h
  split at h
  · exact RustRes.noConfusion h
  rename_i r' t2 heq
  · have hpair := RustRes.ok.inj h
    injection hpair with h1 h2
    subst h2
    obtain ⟨hlen, hsub⟩ := remove_entry_table _ _ _ _ _ heq
    intro i hi q hq
    dsimp only at hi hq ⊢
    have hq' := hsub i q hq
    have hi' : i ∈ List.range m.table.buckets.length := by
      rw [List.mem_range] at hi ⊢
      rw [hlen] at hi
      exact hi
    have hpl := hinv i hi' q hq'
    rw [hlen]
    exact hpl

/-- C8: on every reachable map state (a fresh map followed by any sequence of
normally-completing `insert`, `batch_insert` and `remove` calls), each stored
point `p` resides in the bucket at index `hash(p) mod table.length`; the
invariant is preserved by every operation, including the load-factor and
capacity-triggered resizes, which re-distribute every existing point against
the new table length. -/
theorem lsph_c8_placement_invariant (m : LearnedHashMap) (h : Reached m) :
    PlacementInv m := by
  induction h with
  | init =>
    intro i hi
    simp [LearnedHashMap.new, Table.new] at hi
  | withCap n =>
    intro i hi
    simp [LearnedHashMap.with_capacity, Table.with_capacity] at hi
  | ins hre hins ih => exact insert_spec _ _ _ _ ih hins
  | batch hre hb ih => exact batch_insert_spec _ _ _ _ hb
  | rem hre hr ih => exact remove_spec _ _ _ _ ih hr

set_option maxRecDepth 100000 in
/-- Witness for C8: the five-point batch state `st5` is reachable and
satisfies the placement invariant. -/
theorem lsph_c8_placement_invariant_witness : PlacementInv st5 :=
  lsph_c8_placement_invariant st5
    (Reached.batch Reached.init
      (show batch_insert LearnedHashMap.new data5 = RustRes.ok (st5, data5) by
        with_unfolding_all decide))

end LSPH
